import Mathlib

/-!
A verification development for the local content-addressable artifact cache
and OCI-registry transfer client of a package manager ("helm charts"), and
for its OCI getter adapter.

The development shallowly embeds the components the design document
describes: reference parsing and rendering, the content-addressed cache
(blob store plus reference index), the save/pull orchestration of the
client, and the `OCIGetter` adapter.  Blobs are modelled as an inductive
datatype whose constructors stand for the serialized forms the client
produces (raw bytes, config blob, archive blob, manifest blob); the
content hash is an abstract parameter, as the design only relies on
digests through equality and the collision-freedom assumption it
documents.
-/

/-! ### List-of-characters utilities used by the reference grammar -/

abbrev Chars := List Char

/-- Splits a character list at every occurrence of the separator
(the separator itself is dropped). -/
def splitOn (sep : Char) : Chars → List Chars
  | [] => [[]]
  | x :: xs =>
    if x = sep then [] :: splitOn sep xs
    else
      match splitOn sep xs with
      | [] => [[x]]
      | y :: ys => (x :: y) :: ys

/-- Splits a character list at the first occurrence of the separator. -/
def splitFirst (sep : Char) : Chars → Option (Chars × Chars)
  | [] => none
  | x :: xs =>
    if x = sep then some ([], xs)
    else (splitFirst sep xs).map (fun p => (x :: p.1, p.2))

/-- Splits a character list at the last occurrence of the separator. -/
def splitLast (sep : Char) : Chars → Option (Chars × Chars)
  | [] => none
  | x :: xs =>
    match splitLast sep xs with
    | some (a, b) => some (x :: a, b)
    | none => if x = sep then some ([], xs) else none

/-- Joins path segments with the given separator character. -/
def joinSegs (sep : Char) : List Chars → Chars
  | [] => []
  | [s] => s
  | s :: ss => s ++ sep :: joinSegs sep ss

theorem splitOn_ne_nil (sep : Char) (l : Chars) : splitOn sep l ≠ [] := by
  cases l with
  | nil => simp [splitOn]
  | cons x xs =>
    simp only [splitOn]
    split
    · simp
    · split <;> simp

theorem splitOn_of_not_mem (sep : Char) (l : Chars) (h : sep ∉ l) :
    splitOn sep l = [l] := by
  induction l with
  | nil => rfl
  | cons x xs ih =>
    have hx : x ≠ sep := fun he => h (he ▸ List.mem_cons_self x xs)
    have hxs : sep ∉ xs := fun hm => h (List.mem_cons_of_mem x hm)
    simp only [splitOn, if_neg hx, ih hxs]

theorem splitOn_append (sep : Char) (a b : Chars) (h : sep ∉ a) :
    splitOn sep (a ++ sep :: b) = a :: splitOn sep b := by
  induction a with
  | nil => simp [splitOn]
  | cons x xs ih =>
    have hx : x ≠ sep := fun he => h (he ▸ List.mem_cons_self x xs)
    have hxs : sep ∉ xs := fun hm => h (List.mem_cons_of_mem x hm)
    simp only [List.cons_append, splitOn, if_neg hx, List.append_eq, ih hxs]

theorem splitFirst_of_not_mem (sep : Char) (l : Chars) (h : sep ∉ l) :
    splitFirst sep l = none := by
  induction l with
  | nil => rfl
  | cons x xs ih =>
    have hx : x ≠ sep := fun he => h (he ▸ List.mem_cons_self x xs)
    have hxs : sep ∉ xs := fun hm => h (List.mem_cons_of_mem x hm)
    simp only [splitFirst, if_neg hx, ih hxs, Option.map_none']

theorem splitFirst_append (sep : Char) (a b : Chars) (h : sep ∉ a) :
    splitFirst sep (a ++ sep :: b) = some (a, b) := by
  induction a with
  | nil => simp [splitFirst]
  | cons x xs ih =>
    have hx : x ≠ sep := fun he => h (he ▸ List.mem_cons_self x xs)
    have hxs : sep ∉ xs := fun hm => h (List.mem_cons_of_mem x hm)
    simp only [List.cons_append, splitFirst, if_neg hx, List.append_eq, ih hxs,
      Option.map_some']

theorem splitLast_of_not_mem (sep : Char) (l : Chars) (h : sep ∉ l) :
    splitLast sep l = none := by
  induction l with
  | nil => rfl
  | cons x xs ih =>
    have hx : x ≠ sep := fun he => h (he ▸ List.mem_cons_self x xs)
    have hxs : sep ∉ xs := fun hm => h (List.mem_cons_of_mem x hm)
    simp only [splitLast, ih hxs, if_neg hx]

theorem splitLast_append (sep : Char) (a b : Chars) (h : sep ∉ b) :
    splitLast sep (a ++ sep :: b) = some (a, b) := by
  induction a with
  | nil => simp [splitLast, splitLast_of_not_mem sep b h]
  | cons x xs ih => simp only [List.cons_append, splitLast, List.append_eq, ih]

theorem splitOn_joinSegs (sep : Char) (segs : List Chars) (h0 : segs ≠ [])
    (h : ∀ s ∈ segs, sep ∉ s) : splitOn sep (joinSegs sep segs) = segs := by
  induction segs with
  | nil => exact absurd rfl h0
  | cons s ss ih =>
    cases ss with
    | nil => exact splitOn_of_not_mem sep s (h s (List.mem_cons_self s []))
    | cons t ts =>
      have hs : sep ∉ s := h s (List.mem_cons_self s (t :: ts))
      have hrest : ∀ u ∈ t :: ts, sep ∉ u := fun u hu => h u (List.mem_cons_of_mem s hu)
      simp only [joinSegs, splitOn_append sep s _ hs, ih (by simp) hrest]

/-! ### Decimal rendering of port numbers -/

/-- The decimal digit character for a digit value below ten. -/
def digitChar : Nat → Char
  | 0 => '0' | 1 => '1' | 2 => '2' | 3 => '3' | 4 => '4'
  | 5 => '5' | 6 => '6' | 7 => '7' | 8 => '8' | 9 => '9'
  | _ => '0'

/-- The digit value of a decimal digit character. -/
def digitVal (c : Char) : Nat := c.toNat - 48

/-- Renders a natural number in decimal (fuel-based structural recursion;
the fuel is always sufficient when it exceeds the number). -/
def natToCharsAux : Nat → Nat → Chars
  | 0, _ => []
  | fuel + 1, n =>
    if n < 10 then [digitChar n]
    else natToCharsAux fuel (n / 10) ++ [digitChar (n % 10)]

/-- Renders a natural number in decimal. -/
def natToChars (n : Nat) : Chars := natToCharsAux (n + 1) n

/-- Reads back a decimal digit string. -/
def charsToNat (l : Chars) : Nat := l.foldl (fun a c => 10 * a + digitVal c) 0

theorem digitVal_digitChar (k : Nat) (h : k < 10) : digitVal (digitChar k) = k := by
  interval_cases k <;> rfl

theorem natToCharsAux_mem : ∀ fuel n, n < fuel →
    ∀ c ∈ natToCharsAux fuel n, ∃ k, k < 10 ∧ c = digitChar k := by
  intro fuel
  induction fuel with
  | zero => intro n hn; omega
  | succ fuel ih =>
    intro n hn c hc
    rw [natToCharsAux] at hc
    split at hc
    · next h => exact ⟨n, h, by simpa using hc⟩
    · next h =>
      rcases List.mem_append.1 hc with hm | hm
      · refine ih (n / 10) ?_ c hm
        have := Nat.div_lt_self (show 0 < n by omega) (show 1 < 10 by omega)
        omega
      · exact ⟨n % 10, Nat.mod_lt n (by omega), by simpa using hm⟩

theorem natToChars_mem (n : Nat) :
    ∀ c ∈ natToChars n, ∃ k, k < 10 ∧ c = digitChar k :=
  natToCharsAux_mem (n + 1) n (by omega)

theorem natToChars_ne_nil (n : Nat) : natToChars n ≠ [] := by
  rw [natToChars, natToCharsAux]
  split <;> simp

private theorem charsToNat_append_digit (l : Chars) (c : Char) :
    charsToNat (l ++ [c]) = 10 * charsToNat l + digitVal c := by
  simp [charsToNat, List.foldl_append]

theorem charsToNat_natToCharsAux : ∀ fuel n, n < fuel →
    charsToNat (natToCharsAux fuel n) = n := by
  intro fuel
  induction fuel with
  | zero => intro n hn; omega
  | succ fuel ih =>
    intro n hn
    rw [natToCharsAux]
    split
    · next h => simp [charsToNat, digitVal_digitChar n h]
    · next h =>
      have hlt : n / 10 < fuel := by
        have := Nat.div_lt_self (show 0 < n by omega) (show 1 < 10 by omega)
        omega
      rw [charsToNat_append_digit, ih (n / 10) hlt,
        digitVal_digitChar (n % 10) (Nat.mod_lt n (by omega))]
      omega

theorem charsToNat_natToChars (n : Nat) : charsToNat (natToChars n) = n :=
  charsToNat_natToCharsAux (n + 1) n (by omega)

/-! ### Reference parsing and rendering

Modelled from the spec: the reference component (`ParseReference` and the
`Reference` type of the registry package) is not among the provided source
files; only its tests and callers are.  The definitions below follow §4.1
of the design document: grammar `[host[:port]/]repository-path[:tag][@digest]`,
default-host substitution when no explicit host is present, restricted
charsets for segments and tags, digest validation, and host lower-casing. -/

/-- A content digest: a hash algorithm name plus fixed-length lowercase hex. -/
structure Digest where
  algorithm : Chars
  hex : Chars
deriving DecidableEq

/-- A parsed package reference. -/
structure Reference where
  host : Chars
  port : Option Nat
  repository : List Chars
  tag : Option Chars
  digest : Option Digest
deriving DecidableEq

/-- The error taxonomy of §7, flattened. -/
inductive RegError where
  | invalidReference
  | notFound
  | authError
  | networkError
  | protocolError
  | malformedManifest
  | integrityError
  | ioError
deriving DecidableEq

/-- Charset of a registry host: lowercase alphanumerics, dot and dash. -/
def isHostChar (c : Char) : Bool :=
  c.isLower || c.isDigit || c = '.' || c = '-'

/-- Charset of a repository path segment: lowercase alphanumerics and
dot, underscore, dash. -/
def isSegChar (c : Char) : Bool :=
  c.isLower || c.isDigit || c = '.' || c = '_' || c = '-'

/-- Charset of a tag: alphanumerics and dot, underscore, dash. -/
def isTagChar (c : Char) : Bool :=
  c.isAlpha || c.isDigit || c = '.' || c = '_' || c = '-'

/-- Charset of a lowercase hex digit. -/
def isHexChar (c : Char) : Bool :=
  c.isDigit || ('a' ≤ c && c ≤ 'f')

/-- The single supported digest algorithm name. -/
def shaAlg : Chars := "sha256".toList

/-- A valid repository path segment is non-empty over the restricted charset. -/
def validSeg (s : Chars) : Bool := !s.isEmpty && s.all isSegChar

/-- A valid tag is non-empty over the tag charset. -/
def validTag (s : Chars) : Bool := !s.isEmpty && s.all isTagChar

/-- Parses a digest string of the form `algorithm:hex`. -/
def parseDigest (s : Chars) : Option Digest :=
  match splitFirst ':' s with
  | some (alg, hex) =>
    if alg = shaAlg && hex.length = 64 && hex.all isHexChar then some ⟨alg, hex⟩
    else none
  | none => none

/-- A head segment is recognized as a registry host when it contains a dot
or a colon or is the literal `localhost`. -/
def HostLike (h : Chars) : Prop :=
  '.' ∈ h ∨ ':' ∈ h ∨ h = "localhost".toList

instance (h : Chars) : Decidable (HostLike h) := by
  unfold HostLike; infer_instance

/-- Lower-cases a host string (normalization per §3). -/
def lowerChars (s : Chars) : Chars := s.map Char.toLower

/-- Parses an optional `host:port` head into host and port. -/
def parseHostPort (s : Chars) : Except RegError (Chars × Option Nat) :=
  match splitFirst ':' s with
  | some (h, p) =>
    if !p.isEmpty && p.all Char.isDigit then
      let n := charsToNat p
      if n ≤ 65535 then .ok (lowerChars h, some n) else .error .invalidReference
    else .error .invalidReference
  | none => .ok (lowerChars s, none)

/-- Parses the repository path and optional tag of a reference, given the
already-determined host, port and digest. -/
def parseRepoTag (host : Chars) (port : Option Nat) (dg : Option Digest)
    (s : Chars) : Except RegError Reference :=
  let (repoStr, tagOpt) :=
    match splitLast ':' s with
    | some (r, t) => (r, some t)
    | none => (s, none)
  let segs := splitOn '/' repoStr
  if segs.all validSeg
      && (match tagOpt with | some t => validTag t | none => true)
      && (tagOpt.isSome || dg.isSome) then
    .ok ⟨host, port, segs, tagOpt, dg⟩
  else .error .invalidReference

/-- Parses the part of a reference before any `@digest` marker. -/
def parseBase (dh : Chars) (dg : Option Digest) (base : Chars) :
    Except RegError Reference :=
  match splitFirst '/' base with
  | some (head, rest) =>
    if HostLike head then
      match parseHostPort head with
      | .ok (h, p) => parseRepoTag h p dg rest
      | .error e => .error e
    else parseRepoTag dh none dg base
  | none => parseRepoTag dh none dg base

/-- Modelled from the spec: `ParseReference` — parses a locator string into
a `Reference`, substituting the injectable default host `dh` when no
explicit host is present, and failing with `invalidReference` on empty or
malformed input (§4.1). -/
def parseReference (dh : Chars) (s : Chars) : Except RegError Reference :=
  match splitOn '@' s with
  | [base] => parseBase dh none base
  | [base, dstr] =>
    match parseDigest dstr with
    | some d => parseBase dh (some d) base
    | none => .error .invalidReference
  | _ => .error .invalidReference

/-- Renders an optional port as `:port`. -/
def portChars : Option Nat → Chars
  | some p => ':' :: natToChars p
  | none => []

/-- Renders an optional tag as `:tag`. -/
def tagChars : Option Chars → Chars
  | some t => ':' :: t
  | none => []

/-- Renders an optional digest as `@algorithm:hex`. -/
def digestChars : Option Digest → Chars
  | some d => '@' :: (d.algorithm ++ ':' :: d.hex)
  | none => []

/-- Renders a reference back to its normalized string form. -/
def renderRef (r : Reference) : Chars :=
  r.host ++ portChars r.port ++ '/' :: joinSegs '/' r.repository
    ++ tagChars r.tag ++ digestChars r.digest

/-- Validity of a reference, per the invariants of §3 and §4.1: non-empty
lowercase host over a host charset that is moreover recognizable as a host
when rendered (a dot, the literal `localhost`, or an explicit port), a
valid port if any, a non-empty repository of valid segments, a valid tag
if any, a valid digest if any, and at least a tag or a digest. -/
def validRef (r : Reference) : Bool :=
  (!r.host.isEmpty)
    && r.host.all isHostChar
    && (lowerChars r.host = r.host : Bool)
    && (decide ('.' ∈ r.host) || (r.host = "localhost".toList : Bool) || r.port.isSome)
    && (match r.port with | some p => p ≤ 65535 | none => true)
    && !r.repository.isEmpty
    && r.repository.all validSeg
    && (match r.tag with | some t => validTag t | none => true)
    && (match r.digest with
        | some d => (d.algorithm = shaAlg : Bool) && (d.hex.length = 64 : Bool)
            && d.hex.all isHexChar
        | none => true)
    && (r.tag.isSome || r.digest.isSome)

/-- Claim C2: `Parse("localhost:5000/chart0:latest")` succeeds with host
`localhost`, port `5000`, repository `["chart0"]`, tag `latest`, and no
digest, while `Parse("")` and `Parse("host/")` both fail with
`InvalidReference`, for every choice of injectable default host. -/
theorem parseReference_examples (dh : Chars) :
    parseReference dh ("localhost:5000/chart0:latest".toList)
        = .ok ⟨"localhost".toList, some 5000, ["chart0".toList],
            some ("latest".toList), none⟩
      ∧ parseReference dh ("".toList) = .error .invalidReference
      ∧ parseReference dh ("host/".toList) = .error .invalidReference :=
  ⟨rfl, rfl, rfl⟩

/-! ### Character-class facts feeding the round-trip proof -/

theorem isHostChar_ne {c : Char} (h : isHostChar c = true) :
    c ≠ '/' ∧ c ≠ ':' ∧ c ≠ '@' := by
  refine ⟨fun he => ?_, fun he => ?_, fun he => ?_⟩ <;> (subst he; revert h; decide)

theorem isSegChar_ne {c : Char} (h : isSegChar c = true) :
    c ≠ '/' ∧ c ≠ ':' ∧ c ≠ '@' := by
  refine ⟨fun he => ?_, fun he => ?_, fun he => ?_⟩ <;> (subst he; revert h; decide)

theorem isTagChar_ne {c : Char} (h : isTagChar c = true) :
    c ≠ ':' ∧ c ≠ '@' := by
  refine ⟨fun he => ?_, fun he => ?_⟩ <;> (subst he; revert h; decide)

theorem isHexChar_ne {c : Char} (h : isHexChar c = true) : c ≠ '@' := by
  intro he; subst he; revert h; decide

theorem isDigit_ne {c : Char} (h : c.isDigit = true) :
    c ≠ '/' ∧ c ≠ ':' ∧ c ≠ '@' := by
  refine ⟨fun he => ?_, fun he => ?_, fun he => ?_⟩ <;> (subst he; revert h; decide)

theorem not_mem_of_forall_ne {l : Chars} {x : Char} (h : ∀ c ∈ l, c ≠ x) :
    x ∉ l := fun hm => h x hm rfl

theorem digitChar_isDigit : ∀ k, k < 10 → (digitChar k).isDigit = true := by
  intro k hk; interval_cases k <;> decide

theorem natToChars_digits (n : Nat) : ∀ c ∈ natToChars n, c.isDigit = true := by
  intro c hc
  obtain ⟨k, hk, rfl⟩ := natToChars_mem n c hc
  exact digitChar_isDigit k hk

theorem mem_joinSegs {sep : Char} {segs : List Chars} {x : Char}
    (h : x ∈ joinSegs sep segs) : x = sep ∨ ∃ s ∈ segs, x ∈ s := by
  induction segs with
  | nil => simp [joinSegs] at h
  | cons s ss ih =>
    cases ss with
    | nil => exact Or.inr ⟨s, by simp, by simpa [joinSegs] using h⟩
    | cons t ts =>
      simp only [joinSegs, List.mem_append, List.mem_cons] at h
      rcases h with hm | hm | hm
      · exact Or.inr ⟨s, by simp, hm⟩
      · exact Or.inl hm
      · rcases ih hm with he | ⟨u, hu, hxu⟩
        · exact Or.inl he
        · exact Or.inr ⟨u, List.mem_cons_of_mem s hu, hxu⟩

/-- Characters of a rendered port part are a colon followed by digits. -/
theorem mem_portChars {port : Option Nat} {x : Char} (h : x ∈ portChars port) :
    x = ':' ∨ x.isDigit = true := by
  cases port with
  | none => simp [portChars] at h
  | some p =>
    simp only [portChars, List.mem_cons] at h
    rcases h with he | hm
    · exact Or.inl he
    · exact Or.inr (natToChars_digits p x hm)

theorem isEmpty_false_of_ne_nil {l : Chars} (h : l ≠ []) : l.isEmpty = false := by
  cases l with
  | nil => exact absurd rfl h
  | cons x xs => rfl

theorem band_true {a b : Bool} (h : (a && b) = true) : a = true ∧ b = true := by
  simp only [Bool.and_eq_true] at h; exact h

theorem segs_all_isSegChar {segs : List Chars} (h : segs.all validSeg = true) :
    ∀ s ∈ segs, ∀ c ∈ s, isSegChar c = true := fun s hs c hc =>
  List.all_eq_true.1 (band_true (List.all_eq_true.1 h s hs)).2 c hc

theorem mem_tagChars {tag : Option Chars} {x : Char} (h : x ∈ tagChars tag) :
    ∃ t, tag = some t ∧ (x = ':' ∨ x ∈ t) := by
  cases tag with
  | none => simp [tagChars] at h
  | some t =>
    simp only [tagChars, List.mem_cons] at h
    exact ⟨t, rfl, h⟩

theorem parseHostPort_render (host : Chars) (port : Option Nat)
    (hcs : host.all isHostChar = true) (hlower : lowerChars host = host)
    (hle : ∀ p, port = some p → p ≤ 65535) :
    parseHostPort (host ++ portChars port) = .ok (host, port) := by
  have hcolon : ':' ∉ host :=
    not_mem_of_forall_ne fun c hc => (isHostChar_ne (List.all_eq_true.1 hcs c hc)).2.1
  cases port with
  | none =>
    simp only [portChars, List.append_nil, parseHostPort,
      splitFirst_of_not_mem ':' host hcolon, hlower]
  | some p =>
    have hle' : p ≤ 65535 := hle p rfl
    have hdig : (natToChars p).all Char.isDigit = true :=
      List.all_eq_true.2 (natToChars_digits p)
    simp only [parseHostPort, portChars, splitFirst_append ':' host _ hcolon,
      isEmpty_false_of_ne_nil (natToChars_ne_nil p), hdig, Bool.not_false,
      Bool.and_self, if_true, charsToNat_natToChars, hle', hlower]

theorem parseRepoTag_render (host : Chars) (port : Option Nat) (dg : Option Digest)
    (segs : List Chars) (tag : Option Chars)
    (hne : segs ≠ [])
    (hsegs : segs.all validSeg = true)
    (htag : ∀ t, tag = some t → validTag t = true)
    (hone : (tag.isSome || dg.isSome) = true) :
    parseRepoTag host port dg (joinSegs '/' segs ++ tagChars tag)
      = .ok ⟨host, port, segs, tag, dg⟩ := by
  have hslash : ∀ s ∈ segs, '/' ∉ s := fun s hs =>
    not_mem_of_forall_ne fun c hc => (isSegChar_ne (segs_all_isSegChar hsegs s hs c hc)).1
  have hnocolon : ':' ∉ joinSegs '/' segs := by
    intro hm
    rcases mem_joinSegs hm with he | ⟨s, hs, hcs⟩
    · exact absurd he (by decide)
    · exact (isSegChar_ne (segs_all_isSegChar hsegs s hs ':' hcs)).2.1 rfl
  cases tag with
  | none =>
    have hdg : dg.isSome = true := by simpa using hone
    simp only [tagChars, List.append_nil, parseRepoTag,
      splitLast_of_not_mem ':' _ hnocolon, splitOn_joinSegs '/' segs hne hslash,
      hsegs, hdg, Bool.and_true, Bool.true_and, Bool.or_true, if_true]
  | some t =>
    have htagv : validTag t = true := htag t rfl
    have hcolt : ':' ∉ t :=
      not_mem_of_forall_ne fun c hc =>
        (isTagChar_ne (List.all_eq_true.1 (band_true htagv).2 c hc)).1
    simp only [parseRepoTag, tagChars, splitLast_append ':' _ t hcolt,
      splitOn_joinSegs '/' segs hne hslash, hsegs, htagv, Option.isSome_some,
      Bool.true_or, Bool.and_true, Bool.true_and, if_true]

theorem parseBase_render (dh : Chars) (dg : Option Digest) (host : Chars)
    (port : Option Nat) (segs : List Chars) (tag : Option Chars)
    (hcs : host.all isHostChar = true) (hlower : lowerChars host = host)
    (hlike : '.' ∈ host ∨ host = "localhost".toList ∨ port.isSome = true)
    (hple : ∀ p, port = some p → p ≤ 65535)
    (hne : segs ≠ [])
    (hsegs : segs.all validSeg = true)
    (htag : ∀ t, tag = some t → validTag t = true)
    (hone : (tag.isSome || dg.isSome) = true) :
    parseBase dh dg
        ((host ++ portChars port) ++ '/' :: (joinSegs '/' segs ++ tagChars tag))
      = .ok ⟨host, port, segs, tag, dg⟩ := by
  have hslashHost : '/' ∉ host :=
    not_mem_of_forall_ne fun c hc => (isHostChar_ne (List.all_eq_true.1 hcs c hc)).1
  have hslashHP : '/' ∉ host ++ portChars port := by
    intro hm
    rcases List.mem_append.1 hm with hm | hm
    · exact hslashHost hm
    · rcases mem_portChars hm with he | hd
      · exact absurd he (by decide)
      · exact (isDigit_ne hd).1 rfl
  have hHL : HostLike (host ++ portChars port) := by
    cases hp : port with
    | some p =>
      refine Or.inr (Or.inl ?_)
      exact List.mem_append_right host (by simp [portChars])
    | none =>
      rcases hlike with hm | he | hs
      · exact Or.inl (List.mem_append_left _ hm)
      · subst he; simp [portChars, HostLike]
      · rw [hp] at hs; simp at hs
  simp only [parseBase, splitFirst_append '/' _ _ hslashHP, if_pos hHL,
    parseHostPort_render host port hcs hlower hple,
    parseRepoTag_render host port dg segs tag hne hsegs htag hone]

theorem at_not_mem_base {host : Chars} {port : Option Nat} {segs : List Chars}
    {tag : Option Chars}
    (hcs : host.all isHostChar = true)
    (hsegs : segs.all validSeg = true)
    (htag : ∀ t, tag = some t → validTag t = true) :
    '@' ∉ host ++ portChars port ++ '/' :: joinSegs '/' segs ++ tagChars tag := by
  intro hm
  simp only [List.mem_append, List.mem_cons] at hm
  rcases hm with ((hm | hm) | (he | hm)) | hm
  · exact (isHostChar_ne (List.all_eq_true.1 hcs _ hm)).2.2 rfl
  · rcases mem_portChars hm with he | hd
    · exact absurd he (by decide)
    · exact (isDigit_ne hd).2.2 rfl
  · exact absurd he (by decide)
  · rcases mem_joinSegs hm with he | ⟨s, hs, hcm⟩
    · exact absurd he (by decide)
    · exact (isSegChar_ne (segs_all_isSegChar hsegs s hs _ hcm)).2.2 rfl
  · obtain ⟨t, ht, he | hcm⟩ := mem_tagChars hm
    · exact absurd he (by decide)
    · exact (isTagChar_ne (List.all_eq_true.1 (band_true (htag t ht)).2 _ hcm)).2 rfl

/-- Claim C6: reference normalization is idempotent — parsing the rendered
string form of a valid reference yields the reference back, for every
injectable default host. -/
theorem parseReference_renderRef (dh : Chars) (r : Reference)
    (h : validRef r = true) : parseReference dh (renderRef r) = .ok r := by
  obtain ⟨host, port, segs, tag, dg⟩ := r
  simp only [validRef, Bool.and_eq_true, decide_eq_true_eq, Bool.or_eq_true] at h
  obtain ⟨⟨⟨⟨⟨⟨⟨⟨⟨hne, hcs⟩, hlower⟩, hlike⟩, hple⟩, hrne⟩, hsegs⟩, htag⟩, hdg⟩,
    hone⟩ := h
  have hlike' : '.' ∈ host ∨ host = "localhost".toList ∨ port.isSome = true := by
    rcases hlike with (hm | he) | hs
    · exact Or.inl hm
    · exact Or.inr (Or.inl he)
    · exact Or.inr (Or.inr hs)
  have hple' : ∀ p, port = some p → p ≤ 65535 := by
    intro p hp; rw [hp] at hple; simpa using hple
  have htag' : ∀ t, tag = some t → validTag t = true := by
    intro t ht; rw [ht] at htag; simpa using htag
  have hrne' : segs ≠ [] := by
    intro he; rw [he] at hrne; simp at hrne
  have hone' : (tag.isSome || dg.isSome) = true := by
    rcases hone with hs | hs <;> simp [hs]
  have hat : '@' ∉ host ++ portChars port ++ '/' :: joinSegs '/' segs
      ++ tagChars tag := at_not_mem_base hcs hsegs htag'
  have hassoc : host ++ portChars port ++ '/' :: joinSegs '/' segs ++ tagChars tag
      = (host ++ portChars port) ++ '/' :: (joinSegs '/' segs ++ tagChars tag) := by
    simp [List.append_assoc]
  have hbase := parseBase_render dh dg host port segs tag hcs hlower hlike' hple'
    hrne' hsegs htag' hone'
  cases hdgc : dg with
  | none =>
    rw [hdgc] at hbase
    rw [hassoc] at hat
    simp only [renderRef, digestChars, List.append_nil, parseReference, hassoc,
      splitOn_of_not_mem '@' _ hat, hbase]
  | some d =>
    obtain ⟨alg, hex⟩ := d
    rw [hdgc] at hdg hbase
    simp only [Bool.and_eq_true, decide_eq_true_eq] at hdg
    obtain ⟨⟨halg, hlen⟩, hhexcs⟩ := hdg
    subst halg
    have hatd : '@' ∉ shaAlg ++ ':' :: hex := by
      intro hm
      simp only [List.mem_append, List.mem_cons] at hm
      rcases hm with hm | he | hm
      · revert hm; decide
      · exact absurd he (by decide)
      · exact isHexChar_ne (List.all_eq_true.1 hhexcs _ hm) rfl
    have hcola : ':' ∉ shaAlg := by decide
    have hcond : (decide (shaAlg = shaAlg) && decide (hex.length = 64)
        && hex.all isHexChar) = true := by simp [hlen, hhexcs]
    simp only [renderRef, digestChars, parseReference]
    rw [show (host ++ portChars port ++ '/' :: joinSegs '/' segs ++ tagChars tag
        ++ '@' :: (shaAlg ++ ':' :: hex))
      = ((host ++ portChars port ++ '/' :: joinSegs '/' segs ++ tagChars tag)
        ++ '@' :: (shaAlg ++ ':' :: hex)) from by simp [List.append_assoc]]
    rw [splitOn_append '@' _ _ hat, splitOn_of_not_mem '@' _ hatd]
    simp only [parseDigest, splitFirst_append ':' shaAlg hex hcola, hlen, hhexcs,
      decide_True, Bool.and_self, Bool.and_true, Bool.true_and, if_true]
    simpa using hbase

/-- Witness for claim C6 at a concrete valid reference. -/
theorem parseReference_renderRef_witness :
    validRef ⟨"localhost".toList, some 5000, ["chart0".toList],
        some ("latest".toList), none⟩ = true
      ∧ parseReference ("registry.example".toList)
          (renderRef ⟨"localhost".toList, some 5000, ["chart0".toList],
            some ("latest".toList), none⟩)
        = .ok ⟨"localhost".toList, some 5000, ["chart0".toList],
            some ("latest".toList), none⟩ :=
  ⟨by decide, parseReference_renderRef ("registry.example".toList) _ (by decide)⟩

/-! ### The content-addressed cache

Modelled from the spec: the `Cache` component (§4.2) is not among the
provided source files; only its tests are.  Blobs are an inductive type
whose constructors are the serialized forms §4.4 distinguishes; the
content hash is an abstract parameter (the design relies on digests only
through equality and the documented collision-freedom assumption). -/

/-- Package metadata (the fields the chart tests exercise). -/
structure Metadata where
  name : Chars
  version : Chars
  apiVersion : Chars
deriving DecidableEq

/-- A named file inside a package: path and contents. -/
abbrev Entry := Chars × List Nat

/-- An in-memory package: metadata plus content files and templates. -/
structure Package where
  metadata : Metadata
  files : List Entry
  templates : List Entry
deriving DecidableEq

/-- A blob descriptor: media type, content digest and size (§3). -/
structure Descriptor where
  mediaType : Chars
  digest : Nat
  size : Nat
deriving DecidableEq

/-- An OCI manifest: a config descriptor plus ordered layer descriptors. -/
structure Manifest where
  schemaVersion : Nat
  config : Descriptor
  layers : List Descriptor
deriving DecidableEq

/-- A stored blob, by serialized form: raw bytes, a config blob carrying
package metadata, a content archive carrying files and templates, or a
serialized manifest. -/
inductive Blob where
  | raw (data : List Nat)
  | config (meta : Metadata)
  | archive (files templates : List Entry)
  | manifestB (m : Manifest)
deriving DecidableEq

/-- The declared size of a blob. -/
def blobSize : Blob → Nat
  | .raw data => data.length
  | .config _ => 1
  | .archive files templates => files.length + templates.length
  | .manifestB m => m.layers.length + 1

def configMediaType : Chars := "application/vnd.cncf.helm.config.v1+json".toList

def archiveMediaType : Chars := "application/tar+gzip".toList

def manifestMediaType : Chars := "application/vnd.oci.image.manifest.v1+json".toList

/-- Association-list lookup keyed by decidable equality. -/
def alookup {α β : Type} [DecidableEq α] (k : α) : List (α × β) → Option β
  | [] => none
  | (k', v) :: rest => if k = k' then some v else alookup k rest

theorem alookup_cons_self {α β : Type} [DecidableEq α] (k : α) (v : β)
    (l : List (α × β)) : alookup k ((k, v) :: l) = some v := by
  simp [alookup]

theorem alookup_cons_ne {α β : Type} [DecidableEq α] {k k' : α} (v : β)
    (l : List (α × β)) (h : k ≠ k') : alookup k ((k', v) :: l) = alookup k l := by
  simp [alookup, h]

theorem alookup_mem {α β : Type} [DecidableEq α] {k : α} {v : β}
    {l : List (α × β)} (h : alookup k l = some v) : (k, v) ∈ l := by
  induction l with
  | nil => simp [alookup] at h
  | cons e rest ih =>
    obtain ⟨k', v'⟩ := e
    by_cases he : k = k'
    · subst he
      rw [alookup_cons_self] at h
      cases h
      exact List.mem_cons_self _ _
    · rw [alookup_cons_ne v' rest he] at h
      exact List.mem_cons_of_mem _ (ih h)

/-- The cache state: the blob area (digest-named files) and the reference
index (normalized reference string to manifest digest). -/
structure CacheState where
  blobs : List (Nat × Blob)
  index : List (Chars × Nat)
deriving DecidableEq

/-- The empty cache, as `Open` creates it on a fresh root. -/
def emptyCache : CacheState := ⟨[], []⟩

/-- Modelled from the spec: `PutBlob` (§4.2) — computes the digest of the
bytes; a blob file named by an existing digest is a cache hit and nothing
is written, otherwise the blob is stored under its digest.  Returns the
descriptor for the bytes. -/
def putBlob (hash : Blob → Nat) (st : CacheState) (mt : Chars) (b : Blob) :
    CacheState × Descriptor :=
  (match alookup (hash b) st.blobs with
    | some _ => st
    | none => { st with blobs := (hash b, b) :: st.blobs },
   ⟨mt, hash b, blobSize b⟩)

/-- Modelled from the spec: `GetBlob` (§4.2). -/
def getBlob (st : CacheState) (d : Nat) : Except RegError Blob :=
  match alookup d st.blobs with
  | some b => .ok b
  | none => .error .notFound

/-- Modelled from the spec: `PutManifest` (§4.2) — stores the serialized
manifest as a blob and overwrites the index record for the normalized
reference string (last-writer-wins). -/
def putManifest (hash : Blob → Nat) (st : CacheState) (r : Reference)
    (m : Manifest) : CacheState × Descriptor :=
  let key := renderRef r
  let res := putBlob hash st manifestMediaType (.manifestB m)
  ({ res.1 with
      index := (key, res.2.digest) :: res.1.index.filter (fun e => !decide (e.1 = key)) },
    res.2)

/-- Modelled from the spec: `GetManifest` (§4.2) — resolves the reference
through the index, then reads and decodes the manifest blob; fails with
`NotFound` when the reference has no index record. -/
def getManifest (st : CacheState) (r : Reference) :
    Except RegError (Manifest × Nat) :=
  match alookup (renderRef r) st.index with
  | none => .error .notFound
  | some dgst =>
    match alookup dgst st.blobs with
    | none => .error .notFound
    | some (.manifestB m) => .ok (m, dgst)
    | some _ => .error .malformedManifest

/-- The self-verifying-store invariant: every blob file's name is the
digest of its own contents. -/
def blobConsistent (hash : Blob → Nat) (st : CacheState) : Prop :=
  ∀ e ∈ st.blobs, e.1 = hash e.2

/-- Number of index records for a given normalized reference string. -/
def countKey (k : Chars) (idx : List (Chars × Nat)) : Nat :=
  idx.countP (fun e => decide (e.1 = k))

/-- A concrete hash instantiation used by the witnesses. -/
def toyHash : Blob → Nat
  | .raw data => 4 * data.foldl (fun a x => 37 * a + x + 1) 7
  | .config md => 4 * (md.name.length + 3 * md.version.length) + 1
  | .archive fs ts => 4 * (fs.length + 5 * ts.length) + 2
  | .manifestB m => 4 * (m.layers.length + 7 * m.config.digest) + 3

/-- Claim C3: `PutBlob` is content-addressed — the blob stored under
`digest(B)` has contents whose digest equals `digest(B)`, the
self-verifying-store invariant is preserved, and a second `PutBlob` of the
same bytes is a no-op cache hit returning the same descriptor, with at
most one file written in total. -/
theorem putBlob_content_addressed (hash : Blob → Nat) (st : CacheState)
    (mt : Chars) (b : Blob) (h : blobConsistent hash st) :
    (∃ c, alookup (hash b) (putBlob hash st mt b).1.blobs = some c
        ∧ hash c = hash b)
      ∧ blobConsistent hash (putBlob hash st mt b).1
      ∧ (putBlob hash (putBlob hash st mt b).1 mt b).2 = (putBlob hash st mt b).2
      ∧ (putBlob hash (putBlob hash st mt b).1 mt b).1 = (putBlob hash st mt b).1
      ∧ (putBlob hash st mt b).1.blobs.length ≤ st.blobs.length + 1 := by
  cases hlk : alookup (hash b) st.blobs with
  | some c =>
    have hcb : hash b = hash c := h _ (alookup_mem hlk)
    simp only [putBlob, hlk]
    exact ⟨⟨c, rfl, hcb.symm⟩, h, by simp [putBlob, hlk], by simp [putBlob, hlk],
      by omega⟩
  | none =>
    simp only [putBlob, hlk]
    refine ⟨⟨b, alookup_cons_self _ _ _, rfl⟩, ?_, ?_, ?_, ?_⟩
    · intro e he
      rcases List.mem_cons.1 he with he1 | he2
      · subst he1; rfl
      · exact h e he2
    · simp [putBlob, alookup_cons_self]
    · simp [putBlob, alookup_cons_self]
    · simp

/-- Witness for claim C3 at a concrete hash, state and blob. -/
theorem putBlob_content_addressed_witness :
    blobConsistent toyHash emptyCache
      ∧ (putBlob toyHash (putBlob toyHash emptyCache archiveMediaType
            (.raw [1, 2])).1 archiveMediaType (.raw [1, 2])).1
        = (putBlob toyHash emptyCache archiveMediaType (.raw [1, 2])).1 :=
  ⟨fun e he => absurd he (List.not_mem_nil e),
    (putBlob_content_addressed toyHash emptyCache archiveMediaType
      (.raw [1, 2]) (fun e he => absurd he (List.not_mem_nil e))).2.2.2.1⟩

theorem putBlob_index_eq (hash : Blob → Nat) (st : CacheState) (mt : Chars)
    (b : Blob) : (putBlob hash st mt b).1.index = st.index := by
  cases hlk : alookup (hash b) st.blobs <;> simp [putBlob, hlk]

theorem countKey_putManifest (hash : Blob → Nat) (st : CacheState)
    (r : Reference) (m : Manifest) :
    countKey (renderRef r) (putManifest hash st r m).1.index = 1 := by
  simp only [putManifest, countKey, List.countP_cons, decide_True,
    List.countP_filter]
  have hz : List.countP
      (fun e => decide (e.1 = renderRef r) && !decide (e.1 = renderRef r))
      (putBlob hash st manifestMediaType (.manifestB m)).1.index = 0 :=
    List.countP_eq_zero.2 (fun a _ => by simp)
  simp [hz]

/-- Claim C4: `PutManifest(R, M)` followed immediately by `GetManifest(R)`
returns `M` and its digest, and repeating `PutManifest(R, M)` any positive
number of times leaves exactly one index record for `R`
(last-writer-wins). -/
theorem putManifest_then_getManifest (hash : Blob → Nat) (st : CacheState)
    (r : Reference) (m : Manifest)
    (hcoll : ∀ b, alookup (hash (Blob.manifestB m)) st.blobs = some b →
      b = Blob.manifestB m) :
    getManifest (putManifest hash st r m).1 r
        = .ok (m, hash (Blob.manifestB m))
      ∧ ∀ n : Nat, countKey (renderRef r)
          ((fun s => (putManifest hash s r m).1)^[n + 1] st).index = 1 := by
  constructor
  · cases hlk : alookup (hash (Blob.manifestB m)) st.blobs with
    | some b =>
      have hb := hcoll b hlk
      subst hb
      simp [putManifest, getManifest, putBlob, hlk, alookup_cons_self]
    | none =>
      simp [putManifest, getManifest, putBlob, hlk, alookup_cons_self]
  · intro n
    rw [Function.iterate_succ_apply']
    exact countKey_putManifest hash _ r m

/-- A concrete reference shared by the cache witnesses. -/
def sampleRef : Reference :=
  ⟨"localhost".toList, some 5000, ["chart0".toList], some ("latest".toList), none⟩

/-- A concrete manifest shared by the cache witnesses. -/
def sampleManifest : Manifest :=
  ⟨2, ⟨configMediaType, 1, 1⟩, [⟨archiveMediaType, 2, 2⟩]⟩

/-- Witness for claim C4 at a concrete hash, reference and manifest. -/
theorem putManifest_then_getManifest_witness :
    getManifest (putManifest toyHash emptyCache sampleRef sampleManifest).1
        sampleRef
      = .ok (sampleManifest, toyHash (.manifestB sampleManifest))
      ∧ countKey (renderRef sampleRef)
          ((fun s => (putManifest toyHash s sampleRef sampleManifest).1)^[2 + 1]
            emptyCache).index = 1 := by
  have h := putManifest_then_getManifest toyHash emptyCache sampleRef
    sampleManifest (fun b hb => by simp [emptyCache, alookup] at hb)
  exact ⟨h.1, h.2 2⟩

/-! ### Deterministic archive serialization (entries sorted by path) -/

/-- Strict lexicographic order on paths. -/
def lexLt : Chars → Chars → Bool
  | [], [] => false
  | [], _ :: _ => true
  | _ :: _, [] => false
  | a :: as, b :: bs => decide (a < b) || (decide (a = b) && lexLt as bs)

theorem lexLt_asymm : ∀ {x y : Chars}, lexLt x y = true → lexLt y x = false
  | [], [], h => by simp [lexLt] at h
  | [], _ :: _, _ => by simp [lexLt]
  | _ :: _, [], h => by simp [lexLt] at h
  | a :: as, b :: bs, h => by
    simp only [lexLt, Bool.or_eq_true, Bool.and_eq_true, decide_eq_true_eq] at h
    simp only [lexLt, Bool.or_eq_false_iff, Bool.and_eq_false_iff,
      decide_eq_false_iff_not]
    rcases h with hlt | ⟨he, hr⟩
    · exact ⟨fun hba => absurd hlt (not_lt_of_gt hba),
        Or.inl fun hba => absurd hlt (by rw [hba]; exact lt_irrefl a)⟩
    · subst he
      exact ⟨fun hba => absurd hba (lt_irrefl a), Or.inr (lexLt_asymm hr)⟩

theorem lexLt_antisymm : ∀ {x y : Chars},
    lexLt x y = false → lexLt y x = false → x = y
  | [], [], _, _ => rfl
  | [], _ :: _, h, _ => by simp [lexLt] at h
  | _ :: _, [], _, h => by simp [lexLt] at h
  | a :: as, b :: bs, h, h' => by
    simp only [lexLt, Bool.or_eq_false_iff, Bool.and_eq_false_iff,
      decide_eq_false_iff_not] at h h'
    obtain ⟨hab, hr⟩ := h
    obtain ⟨hba, hr'⟩ := h'
    have he : a = b := le_antisymm (le_of_not_lt hba) (le_of_not_lt hab)
    subst he
    rcases hr with hne | hr
    · exact absurd rfl hne
    · rcases hr' with hne | hr'
      · exact absurd rfl hne
      · rw [lexLt_antisymm hr hr']

theorem lexLt_trans : ∀ {x y z : Chars},
    lexLt x y = true → lexLt y z = true → lexLt x z = true
  | [], [], _, h, _ => by simp [lexLt] at h
  | [], _ :: _, [], _, h => by simp [lexLt] at h
  | [], _ :: _, _ :: _, _, _ => by simp [lexLt]
  | _ :: _, [], _, h, _ => by simp [lexLt] at h
  | _ :: _, _ :: _, [], _, h => by simp [lexLt] at h
  | a :: as, b :: bs, c :: cs, h, h' => by
    simp only [lexLt, Bool.or_eq_true, Bool.and_eq_true, decide_eq_true_eq]
      at h h' ⊢
    rcases h with hab | ⟨hab, hr⟩ <;> rcases h' with hbc | ⟨hbc, hr'⟩
    · exact Or.inl (lt_trans hab hbc)
    · exact Or.inl (hbc ▸ hab)
    · exact Or.inl (hab ▸ hbc)
    · exact Or.inr ⟨hab.trans hbc, lexLt_trans hr hr'⟩

/-- Total comparator on archive entries: sort by path. -/
def entryLe (e₁ e₂ : Entry) : Bool := !lexLt e₂.1 e₁.1

theorem entryLe_trans (a b c : Entry) (h : entryLe a b = true)
    (h' : entryLe b c = true) : entryLe a c = true := by
  simp only [entryLe, Bool.not_eq_true'] at h h' ⊢
  by_contra hca
  rw [Bool.not_eq_false] at hca
  cases hbc : lexLt b.1 c.1 with
  | true =>
    have hba := lexLt_trans hbc hca
    rw [h] at hba
    exact absurd hba (by decide)
  | false =>
    have he : c.1 = b.1 := lexLt_antisymm h' hbc
    rw [he] at hca
    rw [hca] at h
    exact absurd h (by decide)

theorem entryLe_total (a b : Entry) : (entryLe a b || entryLe b a) = true := by
  simp only [entryLe, Bool.or_eq_true, Bool.not_eq_true']
  rcases h : lexLt b.1 a.1 with _ | _
  · exact Or.inl rfl
  · exact Or.inr (lexLt_asymm h)

/-- The entry comparator as a decidable relation. -/
def entryLeP (e₁ e₂ : Entry) : Prop := entryLe e₁ e₂ = true

instance : DecidableRel entryLeP := fun a b =>
  inferInstanceAs (Decidable (entryLe a b = true))

instance : IsTotal Entry entryLeP :=
  ⟨fun a b => by
    have h := entryLe_total a b
    simp only [Bool.or_eq_true] at h
    exact h⟩

instance : IsTrans Entry entryLeP :=
  ⟨fun a b c hab hbc => entryLe_trans a b c hab hbc⟩

/-- Sorts archive entries by path (the deterministic ordering of §4.4). -/
def sortEntries (l : List Entry) : List Entry := l.insertionSort entryLeP

theorem sortEntries_perm (l : List Entry) : (sortEntries l).Perm l :=
  List.perm_insertionSort entryLeP l

theorem sortEntries_eq_of_perm {l₁ l₂ : List Entry} (hp : l₁.Perm l₂)
    (hnd : (l₁.map Prod.fst).Nodup) : sortEntries l₁ = sortEntries l₂ := by
  haveI : IsAntisymm Entry (fun e₁ e₂ => lexLt e₁.1 e₂.1 = true) :=
    ⟨fun a b hab hba => by rw [lexLt_asymm hab] at hba; exact absurd hba (by decide)⟩
  have hperm : (sortEntries l₁).Perm (sortEntries l₂) :=
    ((sortEntries_perm l₁).trans hp).trans (sortEntries_perm l₂).symm
  have hsorted : ∀ (l : List Entry), (l.map Prod.fst).Nodup →
      List.Sorted (fun e₁ e₂ => lexLt e₁.1 e₂.1 = true) (sortEntries l) := by
    intro l hnd
    have hle : List.Pairwise (fun a b => entryLe a b = true) (sortEntries l) :=
      List.sorted_insertionSort entryLeP l
    have hnds : ((sortEntries l).map Prod.fst).Nodup :=
      (hnd.perm ((sortEntries_perm l).map Prod.fst).symm)
    have hne : List.Pairwise (fun a b : Entry => a.1 ≠ b.1) (sortEntries l) :=
      List.pairwise_map.1 hnds
    refine (hle.and hne).imp ?_
    intro a b hab
    obtain ⟨hle1, hne1⟩ := hab
    simp only [entryLe, Bool.not_eq_true'] at hle1
    cases hab2 : lexLt a.1 b.1 with
    | true => rfl
    | false => exact absurd (lexLt_antisymm hab2 hle1) hne1
  have hnd₂ : (l₂.map Prod.fst).Nodup := hnd.perm (hp.map Prod.fst)
  exact List.eq_of_perm_of_sorted hperm (hsorted l₁ hnd) (hsorted l₂ hnd₂)

/-- Modelled from the spec: the archive blob `Save` produces — files and
templates serialized with entries sorted by path (§4.4 Save step 1). -/
def archiveBlob (p : Package) : Blob :=
  .archive (sortEntries p.files) (sortEntries p.templates)

/-- Claim C8: Save's archive serialization is deterministic — two packages
with identical logical content (same file/template paths and bytes up to
order, with distinct paths, and equal metadata) produce the same archive
blob, hence archive blobs with the same digest under every hash. -/
theorem archiveBlob_deterministic (p₁ p₂ : Package)
    (_hm : p₁.metadata = p₂.metadata)
    (hf : p₁.files.Perm p₂.files) (ht : p₁.templates.Perm p₂.templates)
    (hnf : (p₁.files.map Prod.fst).Nodup)
    (hnt : (p₁.templates.map Prod.fst).Nodup) :
    archiveBlob p₁ = archiveBlob p₂
      ∧ ∀ hash : Blob → Nat, hash (archiveBlob p₁) = hash (archiveBlob p₂) := by
  have he : archiveBlob p₁ = archiveBlob p₂ := by
    simp only [archiveBlob, sortEntries_eq_of_perm hf hnf,
      sortEntries_eq_of_perm ht hnt]
  exact ⟨he, fun hash => by rw [he]⟩

/-- Witness for claim C8 at two concrete permuted packages. -/
theorem archiveBlob_deterministic_witness :
    archiveBlob ⟨⟨"a".toList, "1".toList, "v1".toList⟩,
        [("b".toList, [2]), ("a".toList, [1])], []⟩
      = archiveBlob ⟨⟨"a".toList, "1".toList, "v1".toList⟩,
          [("a".toList, [1]), ("b".toList, [2])], []⟩ :=
  (archiveBlob_deterministic
    ⟨⟨"a".toList, "1".toList, "v1".toList⟩,
      [("b".toList, [2]), ("a".toList, [1])], []⟩
    ⟨⟨"a".toList, "1".toList, "v1".toList⟩,
      [("a".toList, [1]), ("b".toList, [2])], []⟩
    rfl (by decide) (by decide) (by decide) (by decide)).1

/-! ### Save and local pull (cache round trip) -/

/-- The manifest `SaveChart` builds: config descriptor plus the single
archive layer descriptor, with their real digests and sizes (§4.4 Save
step 2). -/
def saveManifest (hash : Blob → Nat) (p : Package) : Manifest :=
  ⟨2, ⟨configMediaType, hash (Blob.config p.metadata),
      blobSize (Blob.config p.metadata)⟩,
    [⟨archiveMediaType, hash (archiveBlob p), blobSize (archiveBlob p)⟩]⟩

/-- Modelled from the spec: `SaveChart` (§4.4 Save) — serializes the
package metadata to a config blob and the files/templates to a sorted
archive blob, stores both through `PutBlob`, then indexes the manifest
through `PutManifest`.  No network contact. -/
def saveChart (hash : Blob → Nat) (st : CacheState) (p : Package)
    (r : Reference) : CacheState × Descriptor :=
  let res1 := putBlob hash st configMediaType (Blob.config p.metadata)
  let res2 := putBlob hash res1.1 archiveMediaType (archiveBlob p)
  putManifest hash res2.1 r (saveManifest hash p)

/-- Modelled from the spec: the local-only pull — resolves the reference
through the cache index, reads the config and content-archive blobs and
reassembles the package (§4.4 Pull with the Resolver bypassed). -/
def loadChart (st : CacheState) (r : Reference) : Except RegError Package :=
  match getManifest st r with
  | .error e => .error e
  | .ok (m, _) =>
    match alookup m.config.digest st.blobs with
    | some (.config md) =>
      match m.layers.find? (fun d => decide (d.mediaType = archiveMediaType)) with
      | some ld =>
        match alookup ld.digest st.blobs with
        | some (.archive fs ts) => .ok ⟨md, fs, ts⟩
        | some _ => .error .malformedManifest
        | none => .error .notFound
      | none => .error .malformedManifest
    | some _ => .error .malformedManifest
    | none => .error .notFound

/-- Content equality of packages: same metadata, same files and templates
up to order. -/
def contentEquals (p q : Package) : Prop :=
  p.metadata = q.metadata ∧ p.files.Perm q.files ∧ p.templates.Perm q.templates

theorem alookup_putBlob_self (hash : Blob → Nat) (st : CacheState) (mt : Chars)
    (b : Blob) (hb : ∀ c, alookup (hash b) st.blobs = some c → c = b) :
    alookup (hash b) (putBlob hash st mt b).1.blobs = some b := by
  cases hlk : alookup (hash b) st.blobs with
  | some c => rw [hb c hlk] at hlk; simp [putBlob, hlk]
  | none => simp [putBlob, hlk, alookup_cons_self]

theorem alookup_putBlob_other (hash : Blob → Nat) (st : CacheState) (mt : Chars)
    (b : Blob) (k : Nat) (hk : k ≠ hash b) :
    alookup k (putBlob hash st mt b).1.blobs = alookup k st.blobs := by
  cases hlk : alookup (hash b) st.blobs with
  | some c => simp [putBlob, hlk]
  | none => simp [putBlob, hlk, alookup_cons_ne _ _ hk]

theorem putManifest_blobs (hash : Blob → Nat) (st : CacheState) (r : Reference)
    (m : Manifest) : (putManifest hash st r m).1.blobs
      = (putBlob hash st manifestMediaType (.manifestB m)).1.blobs := rfl

/-- Claim C5: local round trip — with the Resolver bypassed, pulling the
reference under which `SaveChart` stored a package returns a package with
the same content: same metadata, same files and same templates.  The
hypotheses are the collision-freedom assumptions of content addressing
that §3 and §9 document: the three blobs this save writes have pairwise
distinct digests, and any blob already stored under one of those digests
has the corresponding contents. -/
theorem saveChart_loadChart_roundtrip (hash : Blob → Nat) (st : CacheState)
    (p : Package) (r : Reference)
    (h1 : ∀ c, alookup (hash (Blob.config p.metadata)) st.blobs = some c →
      c = Blob.config p.metadata)
    (h2 : ∀ c, alookup (hash (archiveBlob p)) st.blobs = some c →
      c = archiveBlob p)
    (h3 : ∀ c, alookup (hash (Blob.manifestB (saveManifest hash p))) st.blobs
      = some c → c = Blob.manifestB (saveManifest hash p))
    (h4 : hash (Blob.config p.metadata) ≠ hash (archiveBlob p))
    (h5 : hash (Blob.config p.metadata)
      ≠ hash (Blob.manifestB (saveManifest hash p)))
    (h6 : hash (archiveBlob p) ≠ hash (Blob.manifestB (saveManifest hash p))) :
    loadChart (saveChart hash st p r).1 r
        = .ok ⟨p.metadata, sortEntries p.files, sortEntries p.templates⟩
      ∧ contentEquals ⟨p.metadata, sortEntries p.files, sortEntries p.templates⟩
          p := by
  refine ⟨?_, rfl, sortEntries_perm p.files, sortEntries_perm p.templates⟩
  set st1 := (putBlob hash st configMediaType (Blob.config p.metadata)).1
    with hst1
  set st2 := (putBlob hash st1 archiveMediaType (archiveBlob p)).1 with hst2
  have hblobs : (saveChart hash st p r).1.blobs
      = (putBlob hash st2 manifestMediaType
          (Blob.manifestB (saveManifest hash p))).1.blobs := rfl
  have hidx : alookup (renderRef r) (saveChart hash st p r).1.index
      = some (hash (Blob.manifestB (saveManifest hash p))) :=
    alookup_cons_self _ _ _
  have hb2 : ∀ c, alookup (hash (Blob.manifestB (saveManifest hash p)))
      st2.blobs = some c → c = Blob.manifestB (saveManifest hash p) := by
    intro c hc
    rw [hst2, alookup_putBlob_other hash st1 archiveMediaType (archiveBlob p) _
      (Ne.symm h6)] at hc
    rw [hst1, alookup_putBlob_other hash st configMediaType
      (Blob.config p.metadata) _ (Ne.symm h5)] at hc
    exact h3 c hc
  have hlkM : alookup (hash (Blob.manifestB (saveManifest hash p)))
      (saveChart hash st p r).1.blobs
      = some (Blob.manifestB (saveManifest hash p)) := by
    rw [hblobs]
    exact alookup_putBlob_self hash st2 _ _ hb2
  have hlkC : alookup (hash (Blob.config p.metadata))
      (saveChart hash st p r).1.blobs = some (Blob.config p.metadata) := by
    rw [hblobs, alookup_putBlob_other hash st2 manifestMediaType
        (Blob.manifestB (saveManifest hash p)) _ h5,
      hst2, alookup_putBlob_other hash st1 archiveMediaType (archiveBlob p) _ h4,
      hst1]
    exact alookup_putBlob_self hash st _ _ h1
  have hlkA : alookup (hash (archiveBlob p))
      (saveChart hash st p r).1.blobs = some (archiveBlob p) := by
    rw [hblobs, alookup_putBlob_other hash st2 manifestMediaType
        (Blob.manifestB (saveManifest hash p)) _ h6, hst2]
    refine alookup_putBlob_self hash st1 _ _ ?_
    intro c hc
    rw [hst1, alookup_putBlob_other hash st configMediaType
      (Blob.config p.metadata) _ (Ne.symm h4)] at hc
    exact h2 c hc
  have hget : getManifest (saveChart hash st p r).1 r
      = .ok (saveManifest hash p, hash (Blob.manifestB (saveManifest hash p))) := by
    simp only [getManifest, hidx, hlkM]
  have hcfgd : (saveManifest hash p).config.digest
      = hash (Blob.config p.metadata) := rfl
  have hfind : (saveManifest hash p).layers.find?
      (fun d => decide (d.mediaType = archiveMediaType))
      = some ⟨archiveMediaType, hash (archiveBlob p), blobSize (archiveBlob p)⟩ := by
    simp [saveManifest, List.find?]
  have hlkA' : alookup (hash (archiveBlob p)) (saveChart hash st p r).1.blobs
      = some (Blob.archive (sortEntries p.files) (sortEntries p.templates)) :=
    hlkA
  simp only [loadChart, hget, hcfgd, hlkC, hfind, hlkA']

/-- A concrete package shared by the save/load witnesses. -/
def samplePackage : Package :=
  ⟨⟨"0".toList, "1.2.3".toList, "v1".toList⟩,
    [("shahryar".toList, [9, 6]), ("a.txt".toList, [1])],
    [("t.yaml".toList, [7])]⟩

/-- Witness for claim C5 at a concrete hash, package and reference. -/
theorem saveChart_loadChart_roundtrip_witness :
    loadChart (saveChart toyHash emptyCache samplePackage sampleRef).1 sampleRef
      = .ok ⟨samplePackage.metadata, sortEntries samplePackage.files,
          sortEntries samplePackage.templates⟩ :=
  (saveChart_loadChart_roundtrip toyHash emptyCache samplePackage sampleRef
    (fun c hc => nomatch hc) (fun c hc => nomatch hc) (fun c hc => nomatch hc)
    (by decide) (by decide) (by decide)).1

/-! ### Concurrency: interleaved cache operations

Modelled from the spec: §5 makes blob writes and index mutations the only
atomic shared-state transitions (atomic rename for blobs, a lock scoped to
index mutation); an execution of many concurrent `Save` operations is
therefore modelled as an arbitrary interleaving — an arbitrary list — of
these atomic actions. -/

/-- An atomic cache action: a content-blob write or an index update. -/
inductive CacheAction where
  | putB (mt : Chars) (b : Blob)
  | putM (r : Reference) (m : Manifest)
deriving DecidableEq

/-- Executes one atomic action. -/
def stepCache (hash : Blob → Nat) (st : CacheState) : CacheAction → CacheState
  | .putB mt b => (putBlob hash st mt b).1
  | .putM r m => (putManifest hash st r m).1

/-- Executes a schedule of atomic actions, left to right. -/
def runCache (hash : Blob → Nat) (st : CacheState)
    (acts : List CacheAction) : CacheState :=
  acts.foldl (stepCache hash) st

/-- The action is an index update for the given normalized reference key. -/
def isPutMFor (k : Chars) : CacheAction → Prop
  | .putB _ _ => False
  | .putM r _ => renderRef r = k

instance (k : Chars) (a : CacheAction) : Decidable (isPutMFor k a) := by
  cases a <;> (unfold isPutMFor; infer_instance)

/-- The action's index key, if any, belongs to the first `n` references. -/
def putMKeyIn (n : Nat) (refs : Nat → Reference) : CacheAction → Prop
  | .putB _ _ => True
  | .putM r _ => ∃ i, i < n ∧ renderRef r = renderRef (refs i)

instance (n : Nat) (refs : Nat → Reference) (a : CacheAction) :
    Decidable (putMKeyIn n refs a) := by
  cases a <;> (unfold putMKeyIn; infer_instance)

theorem index_putManifest (hash : Blob → Nat) (st : CacheState) (r : Reference)
    (m : Manifest) : (putManifest hash st r m).1.index
      = (renderRef r, hash (Blob.manifestB m)) ::
          st.index.filter (fun e => !decide (e.1 = renderRef r)) := by
  simp only [putManifest]
  rw [putBlob_index_eq]
  rfl

theorem countKey_overwrite (k k' : Chars) (d : Nat)
    (idx : List (Chars × Nat)) (hne : k ≠ k') :
    countKey k ((k', d) :: idx.filter (fun e => !decide (e.1 = k'))) =
      countKey k idx := by
  simp only [countKey, List.countP_cons, List.countP_filter]
  have h1 : (decide ((k', d).1 = k)) = false := by
    simp [Ne.symm hne]
  rw [h1]
  simp only [if_neg (by simp : ¬ (false = true)), Nat.add_zero]
  induction idx with
  | nil => rfl
  | cons e rest ih =>
    simp only [List.countP_cons, ih]
    by_cases he : e.1 = k
    · have hnk : (!decide (e.1 = k')) = true := by
        simp only [he, Bool.not_eq_true', decide_eq_false_iff_not]
        exact hne
      simp [he, hnk]
      exact hne
    · simp [he]

theorem blobConsistent_putBlob (hash : Blob → Nat) (st : CacheState)
    (mt : Chars) (b : Blob) (h : blobConsistent hash st) :
    blobConsistent hash (putBlob hash st mt b).1 := by
  cases hlk : alookup (hash b) st.blobs with
  | some c => simpa [putBlob, hlk] using h
  | none =>
    intro e he
    simp only [putBlob, hlk] at he
    rcases List.mem_cons.1 he with he1 | he2
    · subst he1; rfl
    · exact h e he2

theorem blobConsistent_step (hash : Blob → Nat) (st : CacheState)
    (a : CacheAction) (h : blobConsistent hash st) :
    blobConsistent hash (stepCache hash st a) := by
  cases a with
  | putB mt b => exact blobConsistent_putBlob hash st mt b h
  | putM r m =>
    intro e he
    exact blobConsistent_putBlob hash st manifestMediaType (.manifestB m) h e he

theorem blobConsistent_runCache (hash : Blob → Nat) (acts : List CacheAction) :
    ∀ st : CacheState, blobConsistent hash st →
      blobConsistent hash (runCache hash st acts) := by
  induction acts with
  | nil => exact fun st h => h
  | cons a rest ih =>
    intro st h
    exact ih (stepCache hash st a) (blobConsistent_step hash st a h)

theorem runCache_cons (hash : Blob → Nat) (st : CacheState) (a : CacheAction)
    (rest : List CacheAction) :
    runCache hash st (a :: rest) = runCache hash (stepCache hash st a) rest :=
  rfl

theorem countKey_step_other (hash : Blob → Nat) (st : CacheState)
    (a : CacheAction) (k : Chars) (h : ¬ isPutMFor k a) :
    countKey k (stepCache hash st a).index = countKey k st.index := by
  cases a with
  | putB mt b =>
    rw [show stepCache hash st (.putB mt b) = (putBlob hash st mt b).1 from rfl,
      putBlob_index_eq]
  | putM r m =>
    have hne : k ≠ renderRef r := fun he => h (by simpa [isPutMFor] using he.symm)
    rw [show stepCache hash st (.putM r m) = (putManifest hash st r m).1 from rfl,
      index_putManifest]
    exact countKey_overwrite k (renderRef r) _ st.index hne

theorem countKey_runCache_no (hash : Blob → Nat) (k : Chars) :
    ∀ (acts : List CacheAction) (st : CacheState),
      (∀ a ∈ acts, ¬ isPutMFor k a) →
      countKey k (runCache hash st acts).index = countKey k st.index := by
  intro acts
  induction acts with
  | nil => intro st _; rfl
  | cons a rest ih =>
    intro st h
    rw [runCache_cons,
      ih _ (fun c hc => h c (List.mem_cons_of_mem a hc)),
      countKey_step_other hash st a k (h a (List.mem_cons_self a rest))]

theorem countKey_runCache_of (hash : Blob → Nat) (k : Chars) :
    ∀ (acts : List CacheAction) (st : CacheState),
      (∃ a ∈ acts, isPutMFor k a) →
      countKey k (runCache hash st acts).index = 1 := by
  intro acts
  induction acts with
  | nil => rintro st ⟨a, ha, _⟩; simp at ha
  | cons a rest ih =>
    rintro st ⟨b, hb, hbP⟩
    rw [runCache_cons]
    by_cases hrest : ∃ c ∈ rest, isPutMFor k c
    · exact ih _ hrest
    · have hba : b = a := by
        rcases List.mem_cons.1 hb with h | h
        · exact h
        · exact absurd ⟨b, h, hbP⟩ hrest
      subst hba
      rw [countKey_runCache_no hash k rest _
        (fun c hc hcP => hrest ⟨c, hc, hcP⟩)]
      cases b with
      | putB mt bb => exact hbP.elim
      | putM r m =>
        have hk : renderRef r = k := hbP
        rw [← hk]
        exact countKey_putManifest hash st r m

theorem mem_keys_putManifest (hash : Blob → Nat) (st : CacheState)
    (r : Reference) (m : Manifest) (k : Chars) :
    k ∈ (putManifest hash st r m).1.index.map Prod.fst ↔
      k = renderRef r ∨ (k ∈ st.index.map Prod.fst ∧ k ≠ renderRef r) := by
  rw [index_putManifest]
  simp only [List.map_cons, List.mem_cons, List.mem_map, List.mem_filter,
    Bool.not_eq_true', decide_eq_false_iff_not]
  constructor
  · rintro (he | ⟨e, ⟨hem, hene⟩, hek⟩)
    · exact Or.inl he
    · exact Or.inr ⟨⟨e, hem, hek⟩, hek ▸ hene⟩
  · rintro (he | ⟨⟨e, hem, hek⟩, hne⟩)
    · exact Or.inl he
    · exact Or.inr ⟨e, ⟨hem, hek ▸ hne⟩, hek⟩

theorem mem_keys_step (hash : Blob → Nat) (st : CacheState) (a : CacheAction)
    (k : Chars) :
    k ∈ (stepCache hash st a).index.map Prod.fst ↔
      isPutMFor k a ∨ (k ∈ st.index.map Prod.fst ∧ ¬ isPutMFor k a) := by
  cases a with
  | putB mt b =>
    rw [show stepCache hash st (.putB mt b) = (putBlob hash st mt b).1 from rfl,
      putBlob_index_eq]
    simp [isPutMFor]
  | putM r m =>
    rw [show stepCache hash st (.putM r m) = (putManifest hash st r m).1 from rfl,
      mem_keys_putManifest]
    simp only [isPutMFor]
    constructor
    · rintro (he | ⟨hm, hne⟩)
      · exact Or.inl he.symm
      · exact Or.inr ⟨hm, fun he => hne he.symm⟩
    · rintro (he | ⟨hm, hne⟩)
      · exact Or.inl he.symm
      · exact Or.inr ⟨hm, fun he => hne he.symm⟩

theorem mem_keys_runCache (hash : Blob → Nat) (k : Chars) :
    ∀ (acts : List CacheAction) (st : CacheState),
      (k ∈ (runCache hash st acts).index.map Prod.fst ↔
        (∃ a ∈ acts, isPutMFor k a) ∨ k ∈ st.index.map Prod.fst) := by
  intro acts
  induction acts with
  | nil => intro st; simp [runCache]
  | cons a rest ih =>
    intro st
    rw [runCache_cons, ih, mem_keys_step]
    constructor
    · rintro (⟨c, hc, hcP⟩ | hP | ⟨hm, _⟩)
      · exact Or.inl ⟨c, List.mem_cons_of_mem a hc, hcP⟩
      · exact Or.inl ⟨a, List.mem_cons_self a rest, hP⟩
      · exact Or.inr hm
    · rintro (⟨c, hc, hcP⟩ | hm)
      · rcases List.mem_cons.1 hc with he | he
        · subst he
          exact Or.inr (Or.inl hcP)
        · exact Or.inl ⟨c, he, hcP⟩
      · by_cases hP : isPutMFor k a
        · exact Or.inr (Or.inl hP)
        · exact Or.inr (Or.inr ⟨hm, hP⟩)

theorem nodup_keys_step (hash : Blob → Nat) (st : CacheState) (a : CacheAction)
    (h : (st.index.map Prod.fst).Nodup) :
    ((stepCache hash st a).index.map Prod.fst).Nodup := by
  cases a with
  | putB mt b =>
    rw [show stepCache hash st (.putB mt b) = (putBlob hash st mt b).1 from rfl,
      putBlob_index_eq]
    exact h
  | putM r m =>
    rw [show stepCache hash st (.putM r m) = (putManifest hash st r m).1 from rfl,
      index_putManifest, List.map_cons]
    refine List.nodup_cons.2 ⟨?_, ?_⟩
    · intro hm
      obtain ⟨e, hef, he1⟩ := List.mem_map.1 hm
      have := (List.mem_filter.1 hef).2
      rw [Bool.not_eq_true', decide_eq_false_iff_not] at this
      exact this he1
    · exact ((List.filter_sublist st.index).map Prod.fst).nodup h

theorem nodup_keys_runCache (hash : Blob → Nat) :
    ∀ (acts : List CacheAction) (st : CacheState),
      (st.index.map Prod.fst).Nodup →
      ((runCache hash st acts).index.map Prod.fst).Nodup := by
  intro acts
  induction acts with
  | nil => exact fun st h => h
  | cons a rest ih =>
    intro st h
    exact ih _ (nodup_keys_step hash st a h)

/-- Claim C7: an arbitrary interleaving of the atomic cache actions of `n`
concurrent Save operations against `n` distinct references — every
index update using one of the `n` reference keys and every reference
receiving at least one — completes (the model is a total function, so no
crash and no error), corrupts no blob (every stored blob file is still
named by the digest of its own contents), and leaves exactly `n` index
records, one per distinct reference. -/
theorem concurrent_saves_safe (hash : Blob → Nat) (st : CacheState) (n : Nat)
    (refs : Nat → Reference) (acts : List CacheAction)
    (hinj : ∀ i, i < n → ∀ j, j < n →
      renderRef (refs i) = renderRef (refs j) → i = j)
    (hkeys : ∀ a ∈ acts, putMKeyIn n refs a)
    (hall : ∀ i, i < n → ∃ a ∈ acts, isPutMFor (renderRef (refs i)) a)
    (hidx : st.index = [])
    (hcons : blobConsistent hash st) :
    (∀ i, i < n →
        countKey (renderRef (refs i)) (runCache hash st acts).index = 1)
      ∧ (runCache hash st acts).index.length = n
      ∧ blobConsistent hash (runCache hash st acts) := by
  refine ⟨?_, ?_, blobConsistent_runCache hash acts st hcons⟩
  · intro i hi
    exact countKey_runCache_of hash (renderRef (refs i)) acts st (hall i hi)
  · have hmem : ∀ k, k ∈ (runCache hash st acts).index.map Prod.fst ↔
        k ∈ (List.range n).map (fun i => renderRef (refs i)) := by
      intro k
      rw [mem_keys_runCache, hidx]
      simp only [List.map_nil]
      rw [or_iff_left (List.not_mem_nil k)]
      constructor
      · rintro ⟨a, ha, haP⟩
        cases a with
        | putB mt b => exact haP.elim
        | putM r m =>
          obtain ⟨i, hi, hri⟩ := hkeys _ ha
          have hk : renderRef r = k := haP
          exact List.mem_map.2 ⟨i, List.mem_range.2 hi, by rw [← hri, hk]⟩
      · intro hk
        obtain ⟨i, hi, hik⟩ := List.mem_map.1 hk
        obtain ⟨a, ha, haP⟩ := hall i (List.mem_range.1 hi)
        exact ⟨a, ha, by rwa [hik] at haP⟩
    have hnd1 : ((runCache hash st acts).index.map Prod.fst).Nodup := by
      refine nodup_keys_runCache hash acts st ?_
      rw [hidx]
      exact List.nodup_nil
    have hnd2 : ((List.range n).map (fun i => renderRef (refs i))).Nodup := by
      refine List.Nodup.map_on ?_ (List.nodup_range n)
      intro x hx y hy hxy
      exact hinj x (List.mem_range.1 hx) y (List.mem_range.1 hy) hxy
    have hperm := (List.perm_ext_iff_of_nodup hnd1 hnd2).2 hmem
    have hlen := hperm.length_eq
    rw [List.length_map, List.length_map, List.length_range] at hlen
    exact hlen

/-- A second concrete reference, distinct from `sampleRef`. -/
def sampleRef1 : Reference :=
  ⟨"localhost".toList, some 5000, ["chart1".toList], some ("latest".toList), none⟩

/-- The concrete interleaved schedule used by the concurrency witness. -/
def sampleActs : List CacheAction :=
  [.putB archiveMediaType (.raw [1]),
   .putM sampleRef sampleManifest,
   .putM sampleRef1 sampleManifest,
   .putM sampleRef sampleManifest]

/-- Witness for claim C7 at a concrete interleaving of saves against two
distinct references. -/
theorem concurrent_saves_safe_witness :
    (runCache toyHash emptyCache sampleActs).index.length = 2 :=
  (concurrent_saves_safe toyHash emptyCache 2
    (fun i => if i = 0 then sampleRef else sampleRef1) sampleActs
    (by decide) (by decide) (by decide) rfl
    (fun e he => absurd he (List.not_mem_nil e))).2.1

/-! ### Pull through the Resolver

Modelled from the spec: the `Resolver` and the `Client`'s `PullChart`
(§4.3, §4.4) are not among the provided source files; only their tests
are.  Pull fetches the manifest, decodes it, fetches every layer in
manifest order verifying the recomputed digest and the size against the
layer's descriptor, and only after all verification succeeds writes the
manifest, the layers and the index record into the cache (all-or-nothing,
§4.4 steps 4-6). -/

/-- The registry half of the OCI distribution protocol, as an oracle. -/
structure Resolver where
  fetchManifest : Reference → Except RegError Blob
  fetchBlob : List Chars → Nat → Except RegError Blob

/-- Decodes manifest bytes. -/
def decodeManifest : Blob → Option Manifest
  | .manifestB m => some m
  | _ => none

/-- Fetches the layer blobs in manifest order, verifying the recomputed
digest and the size of each against its descriptor; a mismatch aborts
with `IntegrityError` (§4.4 Pull step 4). -/
def fetchLayers (hash : Blob → Nat) (resolver : Resolver) (repo : List Chars) :
    List Descriptor → Except RegError (List Blob)
  | [] => .ok []
  | d :: ds =>
    match resolver.fetchBlob repo d.digest with
    | .error e => .error e
    | .ok b =>
      if hash b = d.digest ∧ blobSize b = d.size then
        match fetchLayers hash resolver repo ds with
        | .error e => .error e
        | .ok bs => .ok (b :: bs)
      else .error .integrityError

/-- Reassembles the package from the verified layer blobs: the first layer
whose media type is the content-archive type provides the files and
templates (§4.4 Pull step 5; the spec does not describe recovering
metadata over the network, so the package carries empty metadata). -/
def assemblePackage (m : Manifest) (bs : List Blob) : Option Package :=
  match (m.layers.zip bs).find?
      (fun e => decide (e.1.mediaType = archiveMediaType)) with
  | some (_, .archive fs ts) => some ⟨⟨[], [], []⟩, fs, ts⟩
  | _ => none

/-- Writes the verified layer blobs into the cache. -/
def putLayers (hash : Blob → Nat) : CacheState → List (Descriptor × Blob) →
    CacheState
  | st, [] => st
  | st, (d, b) :: rest => putLayers hash (putBlob hash st d.mediaType b).1 rest

/-- Modelled from the spec: `PullChart` (§4.4 Pull) — fetch manifest,
decode, fetch and verify every layer, assemble the package, and only then
write manifest, layers and index record into the cache.  Every failure
leaves the cache exactly as it was. -/
def pullChart (hash : Blob → Nat) (resolver : Resolver) (st : CacheState)
    (r : Reference) : CacheState × Except RegError Package :=
  match resolver.fetchManifest r with
  | .error e => (st, .error e)
  | .ok mb =>
    match decodeManifest mb with
    | none => (st, .error .malformedManifest)
    | some m =>
      match fetchLayers hash resolver r.repository m.layers with
      | .error e => (st, .error e)
      | .ok bs =>
        match assemblePackage m bs with
        | none => (st, .error .malformedManifest)
        | some p =>
          let st1 := (putBlob hash st manifestMediaType (.manifestB m)).1
          let st2 := putLayers hash st1 (m.layers.zip bs)
          ((putManifest hash st2 r m).1, .ok p)

theorem fetchLayers_integrity (hash : Blob → Nat) (resolver : Resolver)
    (repo : List Chars) :
    ∀ layers : List Descriptor,
      (∀ d ∈ layers, ∃ b, resolver.fetchBlob repo d.digest = .ok b) →
      (∃ d ∈ layers, ∃ b, resolver.fetchBlob repo d.digest = .ok b
        ∧ (hash b ≠ d.digest ∨ blobSize b ≠ d.size)) →
      fetchLayers hash resolver repo layers = .error .integrityError := by
  intro layers
  induction layers with
  | nil => rintro _ ⟨d, hd, _⟩; simp at hd
  | cons d ds ih =>
    rintro hfetch ⟨d', hd', b', hb', hbad⟩
    obtain ⟨b, hb⟩ := hfetch d (List.mem_cons_self d ds)
    simp only [fetchLayers, hb]
    by_cases hok : hash b = d.digest ∧ blobSize b = d.size
    · rw [if_pos hok]
      have hds : d' ∈ ds := by
        rcases List.mem_cons.1 hd' with he | he
        · subst he
          rw [hb'] at hb
          cases hb
          rcases hbad with hbad | hbad
          · exact absurd hok.1 hbad
          · exact absurd hok.2 hbad
        · exact he
      rw [ih (fun e he => hfetch e (List.mem_cons_of_mem d he))
        ⟨d', hds, b', hb', hbad⟩]
    · rw [if_neg hok]

/-- Claim C1: integrity enforcement is all-or-nothing — when the manifest
fetch and decode succeed, every layer fetch succeeds, and some fetched
layer's bytes hash to a digest (or have a size) different from its
descriptor, `PullChart` fails with `IntegrityError`, the cache is left
exactly as it was (nothing cached, no index entry created or updated for
the reference), and a subsequent `GetManifest` on a previously-empty
reference fails with `NotFound`. -/
theorem pullChart_integrity (hash : Blob → Nat) (resolver : Resolver)
    (st : CacheState) (r : Reference) (mb : Blob) (m : Manifest)
    (hman : resolver.fetchManifest r = .ok mb)
    (hdec : decodeManifest mb = some m)
    (hfetch : ∀ d ∈ m.layers, ∃ b,
      resolver.fetchBlob r.repository d.digest = .ok b)
    (hbad : ∃ d ∈ m.layers, ∃ b,
      resolver.fetchBlob r.repository d.digest = .ok b
        ∧ (hash b ≠ d.digest ∨ blobSize b ≠ d.size)) :
    pullChart hash resolver st r = (st, .error .integrityError)
      ∧ (alookup (renderRef r) st.index = none →
          getManifest (pullChart hash resolver st r).1 r
            = .error .notFound) := by
  have hfl := fetchLayers_integrity hash resolver r.repository m.layers
    hfetch hbad
  have hpull : pullChart hash resolver st r = (st, .error .integrityError) := by
    simp only [pullChart, hman, hdec, hfl]
  refine ⟨hpull, fun hempty => ?_⟩
  rw [hpull]
  simp only [getManifest, hempty]

/-- The corrupt resolver used by the integrity witness: the manifest
declares one layer whose digest does not match the returned bytes. -/
def badResolver : Resolver :=
  ⟨fun _ => .ok (.manifestB sampleManifest),
    fun _ _ => .ok (.raw [1])⟩

/-- Witness for claim C1 at a concrete corrupt resolver. -/
theorem pullChart_integrity_witness :
    pullChart toyHash badResolver emptyCache sampleRef
        = (emptyCache, .error .integrityError)
      ∧ getManifest (pullChart toyHash badResolver emptyCache sampleRef).1
          sampleRef = .error .notFound := by
  have h := pullChart_integrity toyHash badResolver emptyCache sampleRef
    (.manifestB sampleManifest) sampleManifest rfl rfl
    (fun d _ => ⟨.raw [1], rfl⟩)
    ⟨⟨archiveMediaType, 2, 2⟩, by decide, .raw [1], rfl, Or.inl (by decide)⟩
  exact ⟨h.1, h.2 rfl⟩

/-! ### The OCI getter (src/pkg/getter/ocigetter.go)

These definitions embed `OCIGetter.get` and `OCIGetter.httpClient` from
the source file; the collaborators from other packages (registry client
construction, reference parsing, chart pull, `tlsutil.NewClientTLS`,
`urlutil.ExtractHostname`) are oracles passed as parameters. -/

/-- The getter options `ocigetter.go` reads. -/
structure GetterOptions where
  tagname : String
  certFile : String
  keyFile : String
  caFile : String
  insecureSkipVerifyTLS : Bool
  timeout : Nat
  url : String
deriving DecidableEq

/-- `strings.TrimPrefix href "oci://"`: strips one leading occurrence of
the scheme; an href without it is unchanged. -/
def trimOciScheme (href : String) : String :=
  if "oci://".isPrefixOf href then href.drop 6 else href

/-- The reference string the claim describes: the stripped href, with
`:`tag appended exactly when the tagname option is non-empty. -/
def refString (opts : GetterOptions) (href : String) : String :=
  if opts.tagname ≠ "" then
    trimOciScheme href ++ ":" ++ opts.tagname
  else trimOciScheme href

/-- `OCIGetter.get`: construct a registry client, build the reference
string from the href and the tag option, parse it, pull the chart. -/
def ociGetterGet {E C B : Type} (newClient : Except E C)
    (parseRef : String → Except E Reference)
    (pull : C → Reference → Except E B)
    (opts : GetterOptions) (href : String) : Except E B :=
  match newClient with
  | .error e => .error e
  | .ok client =>
    let ref := trimOciScheme href
    let ref := if opts.tagname ≠ "" then ref ++ ":" ++ opts.tagname else ref
    match parseRef ref with
    | .error e => .error e
    | .ok r =>
      match pull client r with
      | .error e => .error e
      | .ok buf => .ok buf

/-- Claim C9: `OCIGetter.get` parses exactly the reference string obtained
by stripping one leading `oci://` from the href and appending `:`tag iff
the tagname option is non-empty; it returns the pulled buffer on success
and an error exactly when client construction, the parse, or the pull
fails. -/
theorem ociGetterGet_spec {E C B : Type} (newClient : Except E C)
    (parseRef : String → Except E Reference)
    (pull : C → Reference → Except E B)
    (opts : GetterOptions) (href : String) :
    (∀ b : B, ociGetterGet newClient parseRef pull opts href = .ok b ↔
      ∃ c r, newClient = .ok c ∧ parseRef (refString opts href) = .ok r
        ∧ pull c r = .ok b)
    ∧ (∀ e : E, ociGetterGet newClient parseRef pull opts href = .error e ↔
        (newClient = .error e
          ∨ ∃ c, newClient = .ok c
              ∧ (parseRef (refString opts href) = .error e
                ∨ ∃ r, parseRef (refString opts href) = .ok r
                    ∧ pull c r = .error e))) := by
  cases newClient with
  | error e0 => constructor <;> intro x <;> simp [ociGetterGet]
  | ok c0 =>
    have hre : (if opts.tagname ≠ "" then
          trimOciScheme href ++ ":" ++ opts.tagname
        else trimOciScheme href) = refString opts href := rfl
    cases hp : parseRef (refString opts href) with
    | error e1 =>
      constructor <;> intro x <;> simp [ociGetterGet, hre, hp]
    | ok r0 =>
      cases hl : pull c0 r0 with
      | error e2 => constructor <;> intro x <;> simp [ociGetterGet, hre, hp, hl]
      | ok b0 => constructor <;> intro x <;> simp [ociGetterGet, hre, hp, hl]

/-- A TLS client configuration (the fields the getter touches). -/
structure TLSConfig where
  insecureSkipVerify : Bool
  serverName : String
deriving DecidableEq

/-- An HTTP transport (the fields the getter sets). -/
structure HTTPTransport where
  disableCompression : Bool
  tlsClientConfig : Option TLSConfig
deriving DecidableEq

/-- An HTTP client: transport plus timeout. -/
structure HTTPClient where
  transport : HTTPTransport
  timeout : Nat
deriving DecidableEq

/-- Errors `httpClient` can surface: the wrapped TLS-construction error or
a passed-through hostname-extraction error. -/
inductive GetterError where
  | wrapTLS (e : String)
  | plain (e : String)
deriving DecidableEq

/-- `OCIGetter.httpClient`: builds a transport with compression disabled;
when cert/key or CA options are set, builds a TLS config from them
(failing if the helper fails), sets its server name from the url option
(failing if hostname extraction fails) and installs it; then, when
`insecureSkipVerifyTLS` is set, replaces the whole TLS config with a fresh
`{InsecureSkipVerify: true}`; finally returns the client with the timeout
option. -/
def httpClient
    (newClientTLS : String → String → String → Except String TLSConfig)
    (extractHostname : String → Except String String)
    (opts : GetterOptions) : Except GetterError HTTPClient :=
  let transport : HTTPTransport := ⟨true, none⟩
  match
    (if (opts.certFile ≠ "" ∧ opts.keyFile ≠ "") ∨ opts.caFile ≠ "" then
      match newClientTLS opts.certFile opts.keyFile opts.caFile with
      | .error e => .error (.wrapTLS e)
      | .ok tlsConf =>
        match extractHostname opts.url with
        | .error e => .error (.plain e)
        | .ok sni =>
          .ok { transport with
            tlsClientConfig := some { tlsConf with serverName := sni } }
    else .ok transport : Except GetterError HTTPTransport)
  with
  | .error e => .error e
  | .ok transport1 =>
    let transport2 :=
      if opts.insecureSkipVerifyTLS then
        { transport1 with tlsClientConfig := some ⟨true, ""⟩ }
      else transport1
    .ok ⟨transport2, opts.timeout⟩

/-- A TLS-helper oracle that always fails, as `tlsutil.NewClientTLS` does
on unreadable certificate files. -/
def failTLS : String → String → String → Except String TLSConfig :=
  fun _ _ _ => .error "bad cert"

/-- A hostname-extraction oracle that always succeeds. -/
def anyHost : String → Except String String := fun s => .ok s

/-- Counterexample to claim C10 as stated: with `insecureSkipVerifyTLS`
set and certificate options also set, `httpClient` returns the wrapped
TLS-construction error instead of a client, because the cert path runs
(and can fail) before the insecure override. -/
theorem httpClient_insecure_counterexample :
    httpClient failTLS anyHost ⟨"", "c", "k", "", true, 77, "example.com"⟩
      = .error (.wrapTLS "bad cert") := rfl

/-- Claim C10 as amended: when `insecureSkipVerifyTLS` is set and the
certificate options are unset — or the TLS helper and hostname extraction
succeed — `httpClient` returns a client whose transport TLS configuration
is exactly `{InsecureSkipVerify: true}` (discarding any configuration
built from the cert options, including its server name) and whose timeout
equals the timeout option. -/
theorem httpClient_insecure (newClientTLS : String → String → String →
      Except String TLSConfig)
    (extractHostname : String → Except String String) (opts : GetterOptions)
    (hins : opts.insecureSkipVerifyTLS = true)
    (hok : (¬ ((opts.certFile ≠ "" ∧ opts.keyFile ≠ "") ∨ opts.caFile ≠ ""))
      ∨ (∃ t s, newClientTLS opts.certFile opts.keyFile opts.caFile = .ok t
          ∧ extractHostname opts.url = .ok s)) :
    httpClient newClientTLS extractHostname opts
      = .ok ⟨⟨true, some ⟨true, ""⟩⟩, opts.timeout⟩ := by
  by_cases hc : (opts.certFile ≠ "" ∧ opts.keyFile ≠ "") ∨ opts.caFile ≠ ""
  · rcases hok with hno | ⟨t, sni, ht, hs⟩
    · exact absurd hc hno
    · simp only [httpClient, if_pos hc, ht, hs, hins, if_true]
  · simp only [httpClient, if_neg hc, hins, if_true]

/-- Witness for the amended claim C10 at concrete options and oracles. -/
theorem httpClient_insecure_witness :
    httpClient failTLS anyHost ⟨"", "", "", "", true, 9, ""⟩
      = .ok ⟨⟨true, some ⟨true, ""⟩⟩, 9⟩ :=
  httpClient_insecure failTLS anyHost ⟨"", "", "", "", true, 9, ""⟩ rfl
    (Or.inl (by decide))
